import Mathlib

set_option maxRecDepth 8000

/-!
Verification development for the device-name resolution engine of
`rename-rusty-device` (`src/main.rs`).

Modelling conventions:

* Rust strings are modelled as `String`/`List Char`; all scanning is done on
  `List Char`, so every definition is executable by kernel reduction.
* The three regular expressions of the source
  (`ifname=(\S[^:]{0,14}):(([0-9A-Fa-f]{2}[:]){5}([0-9A-Fa-f]{2}))`,
  `^\s*DEVICE=(\S[^:]{0,14})`, `^\s*HWADDR=(([0-9A-Fa-f]{2}[:]){5}([0-9A-Fa-f]{2}))`,
  `^eth\d+$`) are embedded as explicit scanning functions that follow the
  leftmost-first (greedy) match semantics of the Rust `regex` crate.
* File/IO effects are modelled by passing the result of the read explicitly:
  a file is an `Except IoErr` value holding its content (`File::open` /
  `read_line` failures become `Except.error`).
* The external `mac_address` crate (`MacAddress::from_str` / `Display`) is not
  part of the repository source; its parser is modelled from the spec (§4.1):
  six 2-hex-digit groups separated by `:`, displayed as uppercase hex pairs.
  On text captured by the patterns above both the spec model and the crate
  agree, since the captured text always has exactly that shape.
-/

/-- Outcome of one `main` invocation: `success name` models printing `name`
to stdout and exiting 0; `failure` models `std::process::exit(1)` with no
name written to stdout. -/
inductive Outcome where
  | success (name : String)
  | failure
deriving DecidableEq, Repr

/-- Opaque cause of an I/O failure (unreadable file or directory entry). -/
inductive IoErr where
  | ioError
deriving DecidableEq, Repr

/-- Error type for the fallible parsers (`Result<_, Box<dyn Error>>` in the
source): an I/O error propagated by `?`, or a defensive failure of the
stricter MAC parse on text captured by a pattern. -/
inductive Err where
  | io (e : IoErr)
  | malformedMac
deriving DecidableEq, Repr

deriving instance DecidableEq for Except

/-- The character class of the regex escape for whitespace (Unicode
White_Space, the `regex` crate's default): used negated by the `(\S...)`
name groups and positively by the `\s*` of the anchored config patterns. -/
def rxSpace : List Char :=
  [' ', '\t', '\n', Char.ofNat 11, Char.ofNat 12, '\r', Char.ofNat 133,
   Char.ofNat 160, Char.ofNat 5760, Char.ofNat 8192, Char.ofNat 8193,
   Char.ofNat 8194, Char.ofNat 8195, Char.ofNat 8196, Char.ofNat 8197,
   Char.ofNat 8198, Char.ofNat 8199, Char.ofNat 8200, Char.ofNat 8201,
   Char.ofNat 8202, Char.ofNat 8232, Char.ofNat 8233, Char.ofNat 8239,
   Char.ofNat 8287, Char.ofNat 12288]

/-- Whether a character is whitespace in the sense of the regex `\s`. -/
def isRxSpace (c : Char) : Bool := decide (c ∈ rxSpace)

/-- The character class `[0-9A-Fa-f]` of the MAC patterns. -/
def hexDigits : List Char :=
  ['A', 'B', 'C', 'D', 'E', 'F',
   'a', 'b', 'c', 'd', 'e', 'f',
   '0', '1', '2', '3', '4', '5', '6', '7', '8', '9']

/-- Whether a character is a hexadecimal digit, `[0-9A-Fa-f]`. -/
def isHex (c : Char) : Bool := decide (c ∈ hexDigits)

/-- Numeric value of a hexadecimal digit (the digit value used by
`u8::from_str_radix(_, 16)`); 0 on non-digits. -/
def hexVal (c : Char) : Nat :=
  match c with
  | '0' => 0 | '1' => 1 | '2' => 2 | '3' => 3 | '4' => 4
  | '5' => 5 | '6' => 6 | '7' => 7 | '8' => 8 | '9' => 9
  | 'a' => 10 | 'b' => 11 | 'c' => 12 | 'd' => 13 | 'e' => 14 | 'f' => 15
  | 'A' => 10 | 'B' => 11 | 'C' => 12 | 'D' => 13 | 'E' => 14 | 'F' => 15
  | _ => 0

/-- Uppercase hexadecimal digit for a value below 16 (the `{:02X}` format
of `MacAddress`'s `Display`). -/
def upperHexDigit (n : Nat) : Char :=
  match n with
  | 0 => '0' | 1 => '1' | 2 => '2' | 3 => '3' | 4 => '4'
  | 5 => '5' | 6 => '6' | 7 => '7' | 8 => '8' | 9 => '9'
  | 10 => 'A' | 11 => 'B' | 12 => 'C' | 13 => 'D' | 14 => 'E' | 15 => 'F'
  | _ => '0'

/-- Value of a 2-digit hexadecimal group. -/
def hexPairVal (a b : Char) : Nat := 16 * hexVal a + hexVal b

/-- Render one octet as two uppercase hexadecimal digits (`{:02X}`). -/
def byteHexUpper (n : Nat) : List Char := [upperHexDigit (n / 16), upperHexDigit (n % 16)]

/-- Join chunks with a `:` between consecutive chunks, as `MacAddress`'s
`Display` writes the six octets. -/
def joinColon : List (List Char) → List Char
  | [] => []
  | [g] => g
  | g :: gs => g ++ ':' :: joinColon gs

/-- Display of a parsed MAC address: uppercase hex pairs joined by `:`
(the `Display` implementation of the `mac_address` crate). -/
def macDisplay (bytes : List Nat) : List Char := joinColon (bytes.map byteHexUpper)

/-- Character-wise lowercasing, modelling Rust's `str::to_lowercase` on the
ASCII output of `macDisplay`. -/
def lowerList (cs : List Char) : List Char := cs.map Char.toLower

/-- Lowercased display of a parsed MAC address: this is the string
`mac.to_string().to_lowercase()` computed by the source. -/
def macDisplayLower (bytes : List Nat) : List Char := lowerList (macDisplay bytes)

/-- Modelled from the spec: parse a colon-separated list of 2-hex-digit
groups into octet values.  The parser itself (`MacAddress::from_str`) lives
in the external `mac_address` crate, which is not part of the repository
source; the spec (§4.1) requires 2-hex-digit groups separated by `:`. -/
def macParsePairs : List Char → Option (List Nat)
  | [a, b] => if isHex a && isHex b then some [hexPairVal a b] else none
  | a :: b :: ':' :: rest =>
    if isHex a && isHex b then (macParsePairs rest).map (fun l => hexPairVal a b :: l)
    else none
  | _ => none

/-- Modelled from the spec: `MacAddress::from_str` — six 2-hex-digit groups
separated by `:`, any other shape fails (`InvalidMacFormat`). -/
def macFromStr (cs : List Char) : Option (List Nat) :=
  match macParsePairs cs with
  | some l => if l.length = 6 then some l else none
  | none => none

/-- MAC address normalization as performed by `main` (src/main.rs:76-79):
parse the raw text, then render it and lowercase the rendering
(`MacAddress::from_str(..)` followed by `.to_string().to_lowercase()`).
`none` models the `?`-propagated parse failure (non-zero exit). -/
def normalizeMac (raw : String) : Option String :=
  (macFromStr raw.data).map (fun bytes => List.asString (macDisplayLower bytes))

/-- Declarative shape of a valid MAC string taken from the spec's words:
six 2-hex-digit groups separated by `:`. -/
def macSpecShape (cs : List Char) : Prop :=
  ∃ g1 g2 g3 g4 g5 g6 : List Char,
    cs = g1 ++ ':' :: g2 ++ ':' :: g3 ++ ':' :: g4 ++ ':' :: g5 ++ ':' :: g6 ∧
    ∀ g ∈ [g1, g2, g3, g4, g5, g6], g.length = 2 ∧ ∀ c ∈ g, isHex c = true

/-- Whether a char list is a canonical lowercase colon-hex MAC rendering:
six groups of two lowercase hex digits joined by `:`. -/
def isCanonicalLowerMac : List Char → Bool
  | [a1, a2, ':', b1, b2, ':', c1, c2, ':', d1, d2, ':', e1, e2, ':', f1, f2] =>
    [a1, a2, b1, b2, c1, c2, d1, d2, e1, e2, f1, f2].all
      (fun c => isHex c && !(decide (c ∈ ['A', 'B', 'C', 'D', 'E', 'F'])))
  | _ => false

/-- Match the MAC sub-pattern `(([0-9A-Fa-f]{2}[:]){5}([0-9A-Fa-f]{2}))` as a
prefix of the input; on success return the 17 captured characters and the
unconsumed remainder.  The pattern has fixed shape, so matching is
deterministic. -/
def matchMacAt : List Char → Option (List Char × List Char)
  | a1 :: a2 :: ':' :: b1 :: b2 :: ':' :: c1 :: c2 :: ':' :: d1 :: d2 :: ':' ::
      e1 :: e2 :: ':' :: f1 :: f2 :: rest =>
    if isHex a1 && isHex a2 && isHex b1 && isHex b2 && isHex c1 && isHex c2 &&
       isHex d1 && isHex d2 && isHex e1 && isHex e2 && isHex f1 && isHex f2 then
      some ([a1, a2, ':', b1, b2, ':', c1, c2, ':', d1, d2, ':', e1, e2, ':', f1, f2], rest)
    else none
  | _ => none

/-- Drop the characters consumed by a leading `\s*`.  The following literal
key starts with a non-whitespace letter, so the greedy `\s*` consumes exactly
the maximal run of whitespace. -/
def dropSpaces (cs : List Char) : List Char := cs.dropWhile isRxSpace

/-- Capture of `^\s*DEVICE=(\S[^:]{0,14})` on one line: after leading
whitespace and the literal `DEVICE=`, one non-whitespace character followed
greedily by up to 14 further non-`:` characters.  At most one match per line
(the pattern is anchored). -/
def devCapture (cs : List Char) : Option (List Char) :=
  let s := dropSpaces cs
  if "DEVICE=".data.isPrefixOf s then
    match s.drop 7 with
    | [] => none
    | c :: rest =>
      if isRxSpace c then none
      else some (c :: (rest.takeWhile (fun x => x != ':')).take 14)
  else none

/-- Capture of `^\s*HWADDR=(([0-9A-Fa-f]{2}[:]){5}([0-9A-Fa-f]{2}))` on one
line: after leading whitespace and the literal `HWADDR=`, the 17-character
MAC shape (trailing characters are permitted and ignored). -/
def hwCapture (cs : List Char) : Option (List Char) :=
  let s := dropSpaces cs
  if "HWADDR=".data.isPrefixOf s then (matchMacAt (s.drop 7)).map Prod.fst
  else none

/-- Loop body of `parse_config_file` (src/main.rs:264-291): scan the lines in
order, remembering the last parsed `HWADDR` capture and the last `DEVICE`
capture; at the end compare the stored address's lowercased rendering with
the target.  A capture that fails the stricter MAC parse would propagate as
`Err.malformedMac` via `?`. -/
def parseConfigGo (target : String) :
    List String → Option (List Nat) → Option (List Char) → Except Err (Option String)
  | [], hw, dev =>
    match hw with
    | some bytes =>
      if macDisplayLower bytes ≠ target.data then Except.ok none
      else Except.ok (dev.map List.asString)
    | none => Except.ok none
  | line :: rest, hw, dev =>
    match hwCapture line.data with
    | some cap =>
      match macFromStr cap with
      | none => Except.error Err.malformedMac
      | some bytes =>
        match devCapture line.data with
        | some d => parseConfigGo target rest (some bytes) (some d)
        | none => parseConfigGo target rest (some bytes) dev
    | none =>
      match devCapture line.data with
      | some d => parseConfigGo target rest hw (some d)
      | none => parseConfigGo target rest hw dev

/-- Embedding of `parse_config_file` (src/main.rs:237-292).  The first
argument is the outcome of opening and reading the file: `Except.error`
models an unreadable file (`File::open(..)?` / `line?`), `Except.ok lines`
the file's lines. -/
def parse_config_file (file : Except IoErr (List String)) (mac_address : String) :
    Except Err (Option String) :=
  match file with
  | Except.error e => Except.error (Err.io e)
  | Except.ok lines => parseConfigGo mac_address lines none none

/-- Whether a candidate name group is acceptable for `(\S[^:]{0,14})`: a
first non-whitespace character (which may itself be `:`) followed by
non-`:` characters. -/
def nameOk : List Char → Bool
  | [] => false
  | c :: rest => !isRxSpace c && rest.all (fun x => x != ':')

/-- Attempt the tail of `ifname=(\S[^:]{0,14}):(MAC)` with a name of exactly
`len` characters: the name group, a literal `:`, then the MAC shape.
Returns (name capture, MAC capture, remainder after the whole match). -/
def tryNameLen (cs : List Char) (len : Nat) : Option (List Char × List Char × List Char) :=
  let name := cs.take len
  if name.length = len && nameOk name then
    match cs.drop len with
    | ':' :: rest2 =>
      match matchMacAt rest2 with
      | some (mac, rest3) => some (name, mac, rest3)
      | none => none
    | _ => none
  else none

/-- Greedy choice of the name length for `(\S[^:]{0,14})`: lengths are tried
from `k` down to 1, mirroring the preference order of the greedy bounded
repetition (longest first). -/
def tryNameGreedy : Nat → List Char → Option (List Char × List Char × List Char)
  | 0, _ => none
  | k + 1, cs =>
    match tryNameLen cs (k + 1) with
    | some r => some r
    | none => tryNameGreedy k cs

/-- Attempt a match of the full pattern
`ifname=(\S[^:]{0,14}):(([0-9A-Fa-f]{2}[:]){5}([0-9A-Fa-f]{2}))` starting at
the head of the input. -/
def tryMatchHere (cs : List Char) : Option (List Char × List Char × List Char) :=
  if "ifname=".data.isPrefixOf cs then tryNameGreedy 15 (cs.drop 7) else none

/-- Fuel-indexed scanner for all non-overlapping matches of the `ifname=`
pattern, leftmost first, continuing after the end of every match — the
semantics of `captures_iter`.  The fuel only serves structural recursion;
`cs.length` fuel is always enough since a match consumes at least 26
characters. -/
def scanIfnameAux : Nat → List Char → List (List Char × List Char)
  | 0, _ => []
  | fuel + 1, cs =>
    match cs with
    | [] => []
    | c :: cs2 =>
      match tryMatchHere (c :: cs2) with
      | some (name, mac, rest) => (name, mac) :: scanIfnameAux fuel rest
      | none => scanIfnameAux fuel cs2

/-- All `(name, mac)` captures of the `ifname=` pattern in the input, in
match order (the list produced by `captures_iter`). -/
def scanIfname (cs : List Char) : List (List Char × List Char) :=
  scanIfnameAux cs.length cs

/-- Loop body of `parse_kernel_cmdline` (src/main.rs:210-227): walk the
captures in order; parse each captured MAC (a failure would propagate as
`Err.malformedMac` via `?`), compare its lowercased rendering with the
target, stop at the first match keeping its name, reset the name to `None`
on a mismatch. -/
def cmdlineLoop (target : String) : List (List Char × List Char) → Except Err (Option String)
  | [] => Except.ok none
  | (name, mac) :: rest =>
    match macFromStr mac with
    | none => Except.error Err.malformedMac
    | some bytes =>
      if macDisplayLower bytes = target.data then Except.ok (some (List.asString name))
      else cmdlineLoop target rest

/-- Embedding of `parse_kernel_cmdline` (src/main.rs:187-234).  The second
argument is the outcome of opening the cmdline file and reading its first
line (`File::open(..)?` / `read_line(..)?`); `Except.error` models an
unreadable source. -/
def parse_kernel_cmdline (mac_address : String) (cmdline : Except IoErr String) :
    Except Err (Option String) :=
  match cmdline with
  | Except.error e => Except.error (Err.io e)
  | Except.ok text => cmdlineLoop mac_address (scanIfname text.data)

/-- Embedding of `scan_config_dir` (src/main.rs:158-183).  The argument is
the enumeration stream for the directory: `Except.ok name` is an entry with
file name `name`, `Except.error` an entry that errored during enumeration
(skipped by the loop's `Err(_) => continue`).  `glob_with` keeps exactly the
entries matching the case-sensitive glob `ifcfg-*`, i.e. the names starting
with `ifcfg-`; an unreadable directory enumerates to a stream with no `ok`
entry.  The result is `none` ("not found") when no path was collected. -/
def ifcfgEntry : Except IoErr (List Char) → Option (List Char)
  | Except.ok p => if "ifcfg-".data.isPrefixOf p then some p else none
  | Except.error _ => none

def scan_config_dir (listing : List (Except IoErr (List Char))) : Option (List (List Char)) :=
  let config_paths := listing.filterMap ifcfgEntry
  if !config_paths.isEmpty then some config_paths else none

/-- The Unicode `Nd` (decimal digit number) code-point ranges: the character
class the digit escape of the `regex` crate denotes in its default Unicode
mode (`\p{Nd}`).  Table of Unicode 14.0; each pair holds inclusive
code-point bounds (later Unicode versions only add ranges for newly encoded
scripts). -/
def ndRanges : List (Nat × Nat) :=
  [(0x30, 0x39), (0x660, 0x669), (0x6F0, 0x6F9), (0x7C0, 0x7C9),
   (0x966, 0x96F), (0x9E6, 0x9EF), (0xA66, 0xA6F), (0xAE6, 0xAEF),
   (0xB66, 0xB6F), (0xBE6, 0xBEF), (0xC66, 0xC6F), (0xCE6, 0xCEF),
   (0xD66, 0xD6F), (0xDE6, 0xDEF), (0xE50, 0xE59), (0xED0, 0xED9),
   (0xF20, 0xF29), (0x1040, 0x1049), (0x1090, 0x1099), (0x17E0, 0x17E9),
   (0x1810, 0x1819), (0x1946, 0x194F), (0x19D0, 0x19D9), (0x1A80, 0x1A89),
   (0x1A90, 0x1A99), (0x1B50, 0x1B59), (0x1BB0, 0x1BB9), (0x1C40, 0x1C49),
   (0x1C50, 0x1C59), (0xA620, 0xA629), (0xA8D0, 0xA8D9), (0xA900, 0xA909),
   (0xA9D0, 0xA9D9), (0xA9F0, 0xA9F9), (0xAA50, 0xAA59), (0xABF0, 0xABF9),
   (0xFF10, 0xFF19), (0x104A0, 0x104A9), (0x10D30, 0x10D39), (0x11066, 0x1106F),
   (0x110F0, 0x110F9), (0x11136, 0x1113F), (0x111D0, 0x111D9), (0x112F0, 0x112F9),
   (0x11450, 0x11459), (0x114D0, 0x114D9), (0x11650, 0x11659), (0x116C0, 0x116C9),
   (0x11730, 0x11739), (0x118E0, 0x118E9), (0x11950, 0x11959), (0x11C50, 0x11C59),
   (0x11D50, 0x11D59), (0x11DA0, 0x11DA9), (0x16A60, 0x16A69), (0x16AC0, 0x16AC9),
   (0x16B50, 0x16B59), (0x1D7CE, 0x1D7FF), (0x1E140, 0x1E149), (0x1E2F0, 0x1E2F9),
   (0x1E950, 0x1E959), (0x1FBF0, 0x1FBF9)]

/-- Whether a character is a decimal digit in the Unicode sense (`Nd`) —
the set matched by the digit escape of the `^eth\d+$` pattern. -/
def isNdDigit (c : Char) : Bool :=
  ndRanges.any (fun r => decide (r.1 ≤ c.toNat) && decide (c.toNat ≤ r.2))

/-- Embedding of `is_like_kernel_name` (src/main.rs:296-314), the regex
`^eth\d+$`: the literal `eth` followed by one or more decimal digits
(Unicode `Nd`, the `regex` crate's default digit class) and nothing else. -/
def is_like_kernel_name (new_devname : String) : Bool :=
  match new_devname.data with
  | 'e' :: 't' :: 'h' :: rest => !rest.isEmpty && rest.all isNdDigit
  | _ => false

/-- Loop of `main` over the per-file parse results (src/main.rs:129-142):
take the first `Ok(Some(name))`, warn if the name is kernel-style, stop
there; any other result (`Ok(None)` or `Err(..)`) falls into the `_ =>
continue` arm and is skipped.  Returns the chosen name (the empty sentinel
when none) together with the emitted warnings. -/
def resultsLoop : List (Except Err (Option String)) → String × List String
  | [] => ("", [])
  | r :: rest =>
    match r with
    | Except.ok (some name) =>
      (name, if is_like_kernel_name name then [name] else [])
    | _ => resultsLoop rest

/-- First config-file result that yields a device name, skipping files that
yield no name or a parse issue — the spec's reading of step 3 of the
orchestrator. -/
def firstName : List (Except Err (Option String)) → Option String
  | [] => none
  | Except.ok (some n) :: _ => some n
  | _ :: rest => firstName rest

/-- Embedding of the orchestrator `main` (src/main.rs:94-153) after the
target MAC has been normalized.  `cmdline` is the kernel-cmdline read
outcome, `scanResult` the value of `scan_config_dir` with each collected
path replaced by the outcome of reading that file.  Returns the process
outcome together with the kernel-style warnings emitted on the way. -/
def main_resolve (target : String) (cmdline : Except IoErr String)
    (scanResult : Option (List (Except IoErr (List String)))) : Outcome × List String :=
  let state :=
    match parse_kernel_cmdline target cmdline with
    | Except.ok (some name) =>
      (name, if is_like_kernel_name name then [name] else [])
    | _ => (("" : String), ([] : List String))
  if state.1 = "" then
    match scanResult with
    | none => (Outcome.failure, state.2)
    | some files =>
      let looped := resultsLoop (files.map (fun f => parse_config_file f target))
      if looped.1 = "" then (Outcome.failure, state.2 ++ looped.2)
      else (Outcome.success looped.1, state.2 ++ looped.2)
  else (Outcome.success state.1, state.2)

/-- The resolution outcome, written without any reference to the
kernel-style advisory `is_like_kernel_name`: kernel cmdline first, then the
first config file yielding a name, otherwise failure. -/
def resolve_outcome (target : String) (cmdline : Except IoErr String)
    (scanResult : Option (List (Except IoErr (List String)))) : Outcome :=
  match parse_kernel_cmdline target cmdline with
  | Except.ok (some name) => Outcome.success name
  | _ =>
    match scanResult with
    | none => Outcome.failure
    | some files =>
      match firstName (files.map (fun f => parse_config_file f target)) with
      | some name => Outcome.success name
      | none => Outcome.failure

/-- Shape invariant of every name captured by a `(\S[^:]{0,14})` group: one
leading non-whitespace character (possibly `:`), then at most 14 further
characters none of which is `:`. -/
def nameShape (n : String) : Prop :=
  ∃ c rest, n.data = c :: rest ∧ isRxSpace c = false ∧ rest.length ≤ 14 ∧
    ∀ x ∈ rest, x ≠ ':'

theorem isHex_iff {c : Char} : isHex c = true ↔ c ∈ hexDigits := by
  simp [isHex]

theorem hexVal_lt {c : Char} (h : c ∈ hexDigits) : hexVal c < 16 := by
  simp only [hexDigits] at h
  fin_cases h <;> decide

theorem toLower_upperHexDigit {c : Char} (h : c ∈ hexDigits) :
    Char.toLower (upperHexDigit (hexVal c)) = Char.toLower c := by
  simp only [hexDigits] at h
  fin_cases h <;> decide

theorem lower_upperHexDigit_canonical :
    ∀ n < 16, isHex (Char.toLower (upperHexDigit n)) = true ∧
      (Char.toLower (upperHexDigit n) ∉ ['A', 'B', 'C', 'D', 'E', 'F']) ∧
      hexVal (Char.toLower (upperHexDigit n)) = n := by
  decide

theorem hexPairVal_lt {a b : Char} (ha : a ∈ hexDigits) (hb : b ∈ hexDigits) :
    hexPairVal a b < 256 := by
  have h1 := hexVal_lt ha
  have h2 := hexVal_lt hb
  simp only [hexPairVal]
  omega

theorem byteHexUpper_pair {a b : Char} (_ha : a ∈ hexDigits) (hb : b ∈ hexDigits) :
    byteHexUpper (hexPairVal a b) = [upperHexDigit (hexVal a), upperHexDigit (hexVal b)] := by
  have h2 := hexVal_lt hb
  have hd : (16 * hexVal a + hexVal b) / 16 = hexVal a := by omega
  have hm : (16 * hexVal a + hexVal b) % 16 = hexVal b := by omega
  simp [byteHexUpper, hexPairVal, hd, hm]

theorem matchMacAt_eq_some {cs cap rest : List Char} (h : matchMacAt cs = some (cap, rest)) :
    cs = cap ++ rest ∧
    ∃ a1 a2 b1 b2 c1 c2 d1 d2 e1 e2 f1 f2 : Char,
      cap = [a1, a2, ':', b1, b2, ':', c1, c2, ':', d1, d2, ':', e1, e2, ':', f1, f2] ∧
      a1 ∈ hexDigits ∧ a2 ∈ hexDigits ∧ b1 ∈ hexDigits ∧ b2 ∈ hexDigits ∧
      c1 ∈ hexDigits ∧ c2 ∈ hexDigits ∧ d1 ∈ hexDigits ∧ d2 ∈ hexDigits ∧
      e1 ∈ hexDigits ∧ e2 ∈ hexDigits ∧ f1 ∈ hexDigits ∧ f2 ∈ hexDigits := by
  rw [matchMacAt.eq_def] at h
  split at h
  case _ a1 a2 b1 b2 c1 c2 d1 d2 e1 e2 f1 f2 rest2 =>
    split at h
    case _ hcond =>
      simp only [Bool.and_eq_true, isHex, decide_eq_true_eq] at hcond
      obtain ⟨⟨⟨⟨⟨⟨⟨⟨⟨⟨⟨h1, h2⟩, h3⟩, h4⟩, h5⟩, h6⟩, h7⟩, h8⟩, h9⟩, h10⟩, h11⟩, h12⟩ := hcond
      simp only [Option.some.injEq, Prod.mk.injEq] at h
      obtain ⟨hcap, hrest⟩ := h
      subst hcap; subst hrest
      refine ⟨rfl, a1, a2, b1, b2, c1, c2, d1, d2, e1, e2, f1, f2, rfl, ?_⟩
      exact ⟨h1, h2, h3, h4, h5, h6, h7, h8, h9, h10, h11, h12⟩
    case _ => exact absurd h (by simp)
  case _ => exact absurd h (by simp)

theorem macFromStr_explicit {a1 a2 b1 b2 c1 c2 d1 d2 e1 e2 f1 f2 : Char}
    (h1 : a1 ∈ hexDigits) (h2 : a2 ∈ hexDigits) (h3 : b1 ∈ hexDigits) (h4 : b2 ∈ hexDigits)
    (h5 : c1 ∈ hexDigits) (h6 : c2 ∈ hexDigits) (h7 : d1 ∈ hexDigits) (h8 : d2 ∈ hexDigits)
    (h9 : e1 ∈ hexDigits) (h10 : e2 ∈ hexDigits) (h11 : f1 ∈ hexDigits) (h12 : f2 ∈ hexDigits) :
    macFromStr [a1, a2, ':', b1, b2, ':', c1, c2, ':', d1, d2, ':', e1, e2, ':', f1, f2] =
      some [hexPairVal a1 a2, hexPairVal b1 b2, hexPairVal c1 c2,
            hexPairVal d1 d2, hexPairVal e1 e2, hexPairVal f1 f2] := by
  have e1h : isHex a1 = true := isHex_iff.mpr h1
  have e2h : isHex a2 = true := isHex_iff.mpr h2
  have e3h : isHex b1 = true := isHex_iff.mpr h3
  have e4h : isHex b2 = true := isHex_iff.mpr h4
  have e5h : isHex c1 = true := isHex_iff.mpr h5
  have e6h : isHex c2 = true := isHex_iff.mpr h6
  have e7h : isHex d1 = true := isHex_iff.mpr h7
  have e8h : isHex d2 = true := isHex_iff.mpr h8
  have e9h : isHex e1 = true := isHex_iff.mpr h9
  have e10h : isHex e2 = true := isHex_iff.mpr h10
  have e11h : isHex f1 = true := isHex_iff.mpr h11
  have e12h : isHex f2 = true := isHex_iff.mpr h12
  simp [macFromStr, macParsePairs, e1h, e2h, e3h, e4h, e5h, e6h, e7h, e8h, e9h, e10h,
    e11h, e12h]

theorem macDisplayLower_explicit {a1 a2 b1 b2 c1 c2 d1 d2 e1 e2 f1 f2 : Char}
    (h1 : a1 ∈ hexDigits) (h2 : a2 ∈ hexDigits) (h3 : b1 ∈ hexDigits) (h4 : b2 ∈ hexDigits)
    (h5 : c1 ∈ hexDigits) (h6 : c2 ∈ hexDigits) (h7 : d1 ∈ hexDigits) (h8 : d2 ∈ hexDigits)
    (h9 : e1 ∈ hexDigits) (h10 : e2 ∈ hexDigits) (h11 : f1 ∈ hexDigits) (h12 : f2 ∈ hexDigits) :
    macDisplayLower [hexPairVal a1 a2, hexPairVal b1 b2, hexPairVal c1 c2,
        hexPairVal d1 d2, hexPairVal e1 e2, hexPairVal f1 f2] =
      lowerList [a1, a2, ':', b1, b2, ':', c1, c2, ':', d1, d2, ':', e1, e2, ':', f1, f2] := by
  have hcolon : Char.toLower ':' = ':' := by decide
  simp [macDisplayLower, macDisplay, joinColon, lowerList,
    byteHexUpper_pair h1 h2, byteHexUpper_pair h3 h4, byteHexUpper_pair h5 h6,
    byteHexUpper_pair h7 h8, byteHexUpper_pair h9 h10, byteHexUpper_pair h11 h12,
    toLower_upperHexDigit h1, toLower_upperHexDigit h2, toLower_upperHexDigit h3,
    toLower_upperHexDigit h4, toLower_upperHexDigit h5, toLower_upperHexDigit h6,
    toLower_upperHexDigit h7, toLower_upperHexDigit h8, toLower_upperHexDigit h9,
    toLower_upperHexDigit h10, toLower_upperHexDigit h11, toLower_upperHexDigit h12, hcolon]

theorem matchMac_cap_facts {cs cap rest : List Char} (h : matchMacAt cs = some (cap, rest)) :
    ∃ bytes, macFromStr cap = some bytes ∧ macDisplayLower bytes = lowerList cap ∧
      (∀ b ∈ bytes, b < 256) := by
  obtain ⟨-, a1, a2, b1, b2, c1, c2, d1, d2, e1, e2, f1, f2, hcap,
    h1, h2, h3, h4, h5, h6, h7, h8, h9, h10, h11, h12⟩ := matchMacAt_eq_some h
  subst hcap
  refine ⟨_, macFromStr_explicit h1 h2 h3 h4 h5 h6 h7 h8 h9 h10 h11 h12,
    macDisplayLower_explicit h1 h2 h3 h4 h5 h6 h7 h8 h9 h10 h11 h12, ?_⟩
  intro b hb
  simp only [List.mem_cons, List.not_mem_nil, or_false] at hb
  rcases hb with h | h | h | h | h | h <;> subst h
  · exact hexPairVal_lt h1 h2
  · exact hexPairVal_lt h3 h4
  · exact hexPairVal_lt h5 h6
  · exact hexPairVal_lt h7 h8
  · exact hexPairVal_lt h9 h10
  · exact hexPairVal_lt h11 h12

theorem lastOfCons {α : Type} (a : α) (l : List α) :
    (a :: l).getLast? = match l.getLast? with | some x => some x | none => some a := by
  induction l generalizing a with
  | nil => simp
  | cons b l ih => rw [List.getLast?_cons_cons, ih]; cases l.getLast? <;> simp [ih]

theorem devCapture_shape {cs d : List Char} (h : devCapture cs = some d) :
    ∃ c rest, d = c :: rest ∧ isRxSpace c = false ∧ rest.length ≤ 14 ∧ ∀ x ∈ rest, x ≠ ':' := by
  simp only [devCapture] at h
  split at h
  case _ =>
    split at h
    case _ => exact absurd h (by simp)
    case _ c rest2 hdrop =>
      split at h
      case _ => exact absurd h (by simp)
      case _ hsp =>
        refine ⟨c, (rest2.takeWhile (fun x => x != ':')).take 14, ?_, ?_, ?_, ?_⟩
        · exact (Option.some.inj h).symm
        · simpa using hsp
        · exact List.length_take_le _ _
        · intro x hx
          have := List.mem_takeWhile_imp (List.mem_of_mem_take hx)
          simpa using this
  case _ => exact absurd h (by simp)

theorem hwCapture_facts {cs cap : List Char} (h : hwCapture cs = some cap) :
    ∃ bytes, macFromStr cap = some bytes ∧ macDisplayLower bytes = lowerList cap ∧
      (∀ b ∈ bytes, b < 256) := by
  simp only [hwCapture] at h
  split at h
  case _ =>
    cases hm : matchMacAt ((dropSpaces cs).drop 7) with
    | some pr =>
      obtain ⟨cap2, rest⟩ := pr
      rw [hm] at h
      simp only [Option.map] at h
      rw [Option.some.inj h] at hm
      exact matchMac_cap_facts hm
    | none =>
      rw [hm] at h
      exact absurd h (by simp)
  case _ => exact absurd h (by simp)

theorem parseConfigGo_spec (target : String) (lines : List String) :
    ∀ (hw : Option (List Nat)) (dev : Option (List Char)),
    (∀ cap ∈ lines.filterMap (fun l => hwCapture l.data), (macFromStr cap).isSome) →
    parseConfigGo target lines hw dev =
      Except.ok (
        match (match (lines.filterMap (fun l => hwCapture l.data)).getLast? with
               | some cap => macFromStr cap
               | none => hw) with
        | some bytes =>
          if macDisplayLower bytes ≠ target.data then none
          else Option.map List.asString
            (match (lines.filterMap (fun l => devCapture l.data)).getLast? with
             | some d => some d
             | none => dev)
        | none => none) := by
  induction lines with
  | nil =>
    intro hw dev _
    cases hw <;> simp only [parseConfigGo, List.filterMap_nil, List.getLast?_nil] <;>
      split <;> simp_all
  | cons line rest ih =>
    intro hw dev hok
    have hok2 : ∀ c2 ∈ rest.filterMap (fun l => hwCapture l.data), (macFromStr c2).isSome := by
      intro c2 hc2
      apply hok
      cases hh2 : hwCapture line.data <;> simp [List.filterMap_cons, hh2, hc2]
    cases hh : hwCapture line.data with
    | some cap =>
      have hcap : (macFromStr cap).isSome := by
        apply hok
        simp [List.filterMap_cons, hh]
      obtain ⟨bytes, hbytes⟩ := Option.isSome_iff_exists.mp hcap
      cases hd : devCapture line.data with
      | some d =>
        simp only [parseConfigGo, hh, hbytes, hd]
        rw [ih _ _ hok2]
        all_goals simp only [List.filterMap_cons, hh, hd, Option.some.injEq, lastOfCons]
        all_goals (cases (rest.filterMap (fun l => hwCapture l.data)).getLast? <;>
          cases (rest.filterMap (fun l => devCapture l.data)).getLast? <;>
            simp [hbytes])
      | none =>
        simp only [parseConfigGo, hh, hbytes, hd]
        rw [ih _ _ hok2]
        all_goals simp only [List.filterMap_cons, hh, hd, Option.some.injEq, lastOfCons]
        all_goals (cases (rest.filterMap (fun l => hwCapture l.data)).getLast? <;>
          cases (rest.filterMap (fun l => devCapture l.data)).getLast? <;>
            simp [hbytes])
    | none =>
      cases hd : devCapture line.data with
      | some d =>
        simp only [parseConfigGo, hh, hd]
        rw [ih _ _ hok2]
        all_goals simp only [List.filterMap_cons, hh, hd, Option.some.injEq, lastOfCons]
        all_goals (cases (rest.filterMap (fun l => hwCapture l.data)).getLast? <;>
          cases (rest.filterMap (fun l => devCapture l.data)).getLast? <;>
            simp)
      | none =>
        simp only [parseConfigGo, hh, hd]
        rw [ih _ _ hok2]
        all_goals simp only [List.filterMap_cons, hh, hd, Option.some.injEq, lastOfCons]
        all_goals (cases (rest.filterMap (fun l => hwCapture l.data)).getLast? <;>
          cases (rest.filterMap (fun l => devCapture l.data)).getLast? <;>
            simp)

theorem hwCaps_parse_ok (lines : List String) :
    ∀ cap ∈ lines.filterMap (fun l => hwCapture l.data), (macFromStr cap).isSome := by
  intro cap hcap
  rw [List.mem_filterMap] at hcap
  obtain ⟨l, -, hl⟩ := hcap
  obtain ⟨bytes, hb, -, -⟩ := hwCapture_facts hl
  simp [hb]

theorem getLast?_mem_list {α : Type} {l : List α} {a : α} (h : l.getLast? = some a) : a ∈ l := by
  have hx : a ∈ l.getLast? := Option.mem_def.mpr h
  obtain ⟨hne, heq⟩ := List.mem_getLast?_eq_getLast hx
  rw [heq]
  exact List.getLast_mem hne

theorem parse_config_file_spec (lines : List String) (target : String) :
    parse_config_file (Except.ok lines) target =
      Except.ok (
        match (lines.filterMap (fun l => hwCapture l.data)).getLast? with
        | none => none
        | some h =>
          if lowerList h = target.data
          then Option.map List.asString (lines.filterMap (fun l => devCapture l.data)).getLast?
          else none) := by
  show parseConfigGo target lines none none = _
  rw [parseConfigGo_spec target lines none none (hwCaps_parse_ok lines)]
  cases hgl : (lines.filterMap (fun l => hwCapture l.data)).getLast? with
  | none => simp
  | some cap =>
    have hmem := getLast?_mem_list hgl
    rw [List.mem_filterMap] at hmem
    obtain ⟨l, -, hl⟩ := hmem
    obtain ⟨bytes, hb, hdisp, -⟩ := hwCapture_facts hl
    simp only [hb, hdisp, ite_not]
    cases (lines.filterMap (fun l => devCapture l.data)).getLast? <;> simp

theorem parse_config_file_no_malformed (file : Except IoErr (List String)) (target : String) :
    parse_config_file file target ≠ Except.error Err.malformedMac := by
  cases file with
  | error e => simp [parse_config_file]
  | ok lines =>
    rw [parse_config_file_spec]
    simp

theorem tryNameLen_facts {cs : List Char} {len : Nat} {name mac rest : List Char}
    (h : tryNameLen cs len = some (name, mac, rest)) :
    nameOk name = true ∧ name.length = len ∧
    (∃ bytes, macFromStr mac = some bytes ∧ macDisplayLower bytes = lowerList mac) ∧
    rest.length + 18 + len = cs.length := by
  simp only [tryNameLen] at h
  split at h
  case _ hcond =>
    simp only [Bool.and_eq_true, decide_eq_true_eq] at hcond
    obtain ⟨hlen, hok⟩ := hcond
    split at h
    case _ rest2 hdrop =>
      cases hm : matchMacAt rest2 with
      | some pr =>
        obtain ⟨mac0, rest3⟩ := pr
        rw [hm] at h
        simp only [Option.some.injEq, Prod.mk.injEq] at h
        obtain ⟨hname, hmac, hrest⟩ := h
        subst hname; subst hmac; subst hrest
        obtain ⟨hsplit, a1, a2, b1, b2, c1, c2, d1, d2, e1, e2, f1, f2, hcap, hx⟩ :=
          matchMacAt_eq_some hm
        obtain ⟨bytes, hb, hd, -⟩ := matchMac_cap_facts hm
        refine ⟨hok, hlen, ⟨bytes, hb, hd⟩, ?_⟩
        have h1 : cs.take len ++ cs.drop len = cs := List.take_append_drop len cs
        have h2 : cs.length = (cs.take len).length + (cs.drop len).length := by
          rw [Eq.symm (congrArg List.length h1), List.length_append]
        have h3 : (cs.drop len).length = rest2.length + 1 := by rw [hdrop]; simp
        have h4 : rest2.length = 17 + rest3.length := by
          rw [hsplit, List.length_append, hcap]
          simp [Nat.add_comm]
        omega
      | none => rw [hm] at h; exact absurd h (by simp)
    case _ => exact absurd h (by simp)
  case _ => exact absurd h (by simp)

theorem tryNameGreedy_facts {k : Nat} {cs name mac rest : List Char}
    (h : tryNameGreedy k cs = some (name, mac, rest)) :
    ∃ len, len ≤ k ∧ tryNameLen cs len = some (name, mac, rest) := by
  induction k with
  | zero => exact absurd h (by simp [tryNameGreedy])
  | succ k ih =>
    rw [tryNameGreedy] at h
    cases ht : tryNameLen cs (k + 1) with
    | some r =>
      rw [ht] at h
      change some r = some (name, mac, rest) at h
      exact ⟨k + 1, Nat.le_refl _, ht.trans h⟩
    | none =>
      rw [ht] at h
      change tryNameGreedy k cs = some (name, mac, rest) at h
      obtain ⟨len, hle, hl⟩ := ih h
      exact ⟨len, Nat.le_succ_of_le hle, hl⟩

theorem tryMatchHere_facts {cs name mac rest : List Char}
    (h : tryMatchHere cs = some (name, mac, rest)) :
    nameOk name = true ∧ 1 ≤ name.length ∧ name.length ≤ 15 ∧
    (∃ bytes, macFromStr mac = some bytes ∧ macDisplayLower bytes = lowerList mac) ∧
    rest.length + 26 ≤ cs.length := by
  simp only [tryMatchHere] at h
  split at h
  case _ hpre =>
    obtain ⟨len, hlen15, hl⟩ := tryNameGreedy_facts h
    obtain ⟨hok, hnamelen, hmac, hcount⟩ := tryNameLen_facts hl
    have hlen1 : 1 ≤ len := by
      by_contra hc
      have : len = 0 := by omega
      subst this
      have : name = [] := List.length_eq_zero.mp hnamelen
      subst this
      simp [nameOk] at hok
    have hdroplen : (cs.drop 7).length = cs.length - 7 := List.length_drop 7 cs
    have hpre2 : 7 ≤ cs.length := by
      have := List.IsPrefix.length_le (List.isPrefixOf_iff_prefix.mp hpre)
      simpa using this
    constructor
    · exact hok
    constructor
    · omega
    constructor
    · omega
    constructor
    · exact hmac
    · omega
  case _ => exact absurd h (by simp)

theorem tryMatchHere_rest_le {c : Char} {cs2 name mac rest : List Char}
    (h : tryMatchHere (c :: cs2) = some (name, mac, rest)) : rest.length ≤ cs2.length := by
  have hfacts := (tryMatchHere_facts h).2.2.2.2
  simp only [List.length_cons] at hfacts
  omega

theorem scanIfnameAux_fuel (f : Nat) : ∀ (g : Nat) (cs : List Char),
    cs.length ≤ f → cs.length ≤ g → scanIfnameAux f cs = scanIfnameAux g cs := by
  induction f with
  | zero =>
    intro g cs hf _
    have : cs = [] := List.length_eq_zero.mp (Nat.le_zero.mp hf)
    subst this
    cases g <;> simp [scanIfnameAux]
  | succ f ih =>
    intro g cs hf hg
    cases g with
    | zero =>
      have : cs = [] := List.length_eq_zero.mp (Nat.le_zero.mp hg)
      subst this
      simp [scanIfnameAux]
    | succ g =>
      cases cs with
      | nil => simp [scanIfnameAux]
      | cons c cs2 =>
        simp only [scanIfnameAux]
        cases ht : tryMatchHere (c :: cs2) with
        | some r =>
          obtain ⟨name, mac, rest⟩ := r
          have hle := tryMatchHere_rest_le ht
          simp only [List.length_cons] at hf hg
          exact congrArg (List.cons (name, mac)) (ih g rest (by omega) (by omega))
        | none =>
          simp only [List.length_cons] at hf hg
          exact ih g cs2 (by omega) (by omega)

theorem scanIfname_cons (c : Char) (cs2 : List Char) :
    scanIfname (c :: cs2) =
      match tryMatchHere (c :: cs2) with
      | some (name, mac, rest) => (name, mac) :: scanIfname rest
      | none => scanIfname cs2 := by
  show scanIfnameAux (c :: cs2).length (c :: cs2) = _
  simp only [List.length_cons, scanIfnameAux]
  cases ht : tryMatchHere (c :: cs2) with
  | some r =>
    obtain ⟨name, mac, rest⟩ := r
    have hle := tryMatchHere_rest_le ht
    exact congrArg (List.cons (name, mac))
      (scanIfnameAux_fuel cs2.length rest.length rest hle (Nat.le_refl _))
  | none => rfl

theorem scanIfname_facts : ∀ (n : Nat) (cs : List Char), cs.length ≤ n →
    ∀ p ∈ scanIfname cs, nameOk p.1 = true ∧ 1 ≤ p.1.length ∧ p.1.length ≤ 15 ∧
      ∃ bytes, macFromStr p.2 = some bytes ∧ macDisplayLower bytes = lowerList p.2 := by
  intro n
  induction n with
  | zero =>
    intro cs hn p hp
    have : cs = [] := List.length_eq_zero.mp (Nat.le_zero.mp hn)
    subst this
    simp [scanIfname, scanIfnameAux] at hp
  | succ n ih =>
    intro cs hn p hp
    cases cs with
    | nil => simp [scanIfname, scanIfnameAux] at hp
    | cons c cs2 =>
      rw [scanIfname_cons] at hp
      simp only [List.length_cons] at hn
      cases ht : tryMatchHere (c :: cs2) with
      | some r =>
        obtain ⟨name, mac, rest⟩ := r
        rw [ht] at hp
        simp only [List.mem_cons] at hp
        cases hp with
        | inl hp =>
          subst hp
          obtain ⟨h1, h2, h3, h4, -⟩ := tryMatchHere_facts ht
          exact ⟨h1, h2, h3, h4⟩
        | inr hp =>
          have hle := tryMatchHere_rest_le ht
          exact ih rest (by omega) p hp
      | none =>
        rw [ht] at hp
        exact ih cs2 (by omega) p hp

theorem cmdlineLoop_spec (target : String) : ∀ (l : List (List Char × List Char)),
    (∀ p ∈ l, ∃ bytes, macFromStr p.2 = some bytes ∧ macDisplayLower bytes = lowerList p.2) →
    cmdlineLoop target l =
      Except.ok (Option.map (fun p => List.asString p.1)
        (l.find? (fun p => lowerList p.2 == target.data))) := by
  intro l
  induction l with
  | nil => intro _; simp [cmdlineLoop]
  | cons p rest ih =>
    intro hok
    obtain ⟨name, mac⟩ := p
    obtain ⟨bytes, hb, hd⟩ := hok (name, mac) (List.mem_cons_self _ _)
    simp only at hb hd
    rw [List.find?_cons]
    simp only [cmdlineLoop, hb, hd]
    by_cases hc : lowerList mac = target.data
    · rw [if_pos hc]
      have : (lowerList mac == target.data) = true := beq_iff_eq.mpr hc
      rw [this]
      simp
    · rw [if_neg hc]
      have : (lowerList mac == target.data) = false := beq_eq_false_iff_ne.mpr hc
      rw [this]
      exact ih (fun q hq => hok q (List.mem_cons_of_mem _ hq))

theorem parse_kernel_cmdline_spec (target text : String) :
    parse_kernel_cmdline target (Except.ok text) =
      Except.ok (Option.map (fun p => List.asString p.1)
        ((scanIfname text.data).find? (fun p => lowerList p.2 == target.data))) := by
  show cmdlineLoop target (scanIfname text.data) = _
  apply cmdlineLoop_spec
  intro p hp
  exact (scanIfname_facts text.data.length text.data (Nat.le_refl _) p hp).2.2.2

theorem parse_kernel_cmdline_no_malformed (target : String) (cl : Except IoErr String) :
    parse_kernel_cmdline target cl ≠ Except.error Err.malformedMac := by
  cases cl with
  | error e => simp [parse_kernel_cmdline]
  | ok text => rw [parse_kernel_cmdline_spec]; simp

theorem nameOk_shape {l : List Char} (h : nameOk l = true) (hlen : l.length ≤ 15) :
    ∃ c rest, l = c :: rest ∧ isRxSpace c = false ∧ rest.length ≤ 14 ∧ ∀ x ∈ rest, x ≠ ':' := by
  cases l with
  | nil => simp [nameOk] at h
  | cons c rest =>
    simp only [nameOk, Bool.and_eq_true, Bool.not_eq_true', List.all_eq_true] at h
    obtain ⟨hsp, hall⟩ := h
    refine ⟨c, rest, rfl, hsp, ?_, ?_⟩
    · simp only [List.length_cons] at hlen; omega
    · intro x hx
      have := hall x hx
      simpa using this

theorem data_cons_ne_empty {s : String} {c : Char} {rest : List Char}
    (h : s.data = c :: rest) : s ≠ "" := by
  intro he
  subst he
  simp at h

theorem parse_kernel_cmdline_shape {target : String} {cl : Except IoErr String} {n : String}
    (h : parse_kernel_cmdline target cl = Except.ok (some n)) : nameShape n := by
  cases cl with
  | error e => simp [parse_kernel_cmdline] at h
  | ok text =>
    rw [parse_kernel_cmdline_spec] at h
    simp only [Except.ok.injEq] at h
    cases hf : (scanIfname text.data).find? (fun p => lowerList p.2 == target.data) with
    | none => rw [hf] at h; simp at h
    | some p =>
      rw [hf] at h
      simp only [Option.map] at h
      have hn : List.asString p.1 = n := Option.some.inj h
      have hmem : p ∈ scanIfname text.data := List.mem_of_find?_eq_some hf
      obtain ⟨hok, -, hlen, -⟩ :=
        scanIfname_facts text.data.length text.data (Nat.le_refl _) p hmem
      obtain ⟨c, rest, hcons, hsp, hr, hnc⟩ := nameOk_shape hok hlen
      refine ⟨c, rest, ?_, hsp, hr, hnc⟩
      rw [Eq.symm hn]
      exact congrArg id hcons

theorem parse_config_file_shape {file : Except IoErr (List String)} {target n : String}
    (h : parse_config_file file target = Except.ok (some n)) : nameShape n := by
  cases file with
  | error e => simp [parse_config_file] at h
  | ok lines =>
    rw [parse_config_file_spec] at h
    simp only [Except.ok.injEq] at h
    cases hgl : (lines.filterMap (fun l => hwCapture l.data)).getLast? with
    | none => rw [hgl] at h; simp at h
    | some cap =>
      rw [hgl] at h
      simp only at h
      split at h
      case _ =>
        cases hdl : (lines.filterMap (fun l => devCapture l.data)).getLast? with
        | none => rw [hdl] at h; simp at h
        | some d =>
          rw [hdl] at h
          simp only [Option.map] at h
          have hn : List.asString d = n := Option.some.inj h
          have hmem := getLast?_mem_list hdl
          rw [List.mem_filterMap] at hmem
          obtain ⟨l, -, hl⟩ := hmem
          obtain ⟨c, rest, hcons, hsp, hr, hnc⟩ := devCapture_shape hl
          refine ⟨c, rest, ?_, hsp, hr, hnc⟩
          rw [Eq.symm hn]
          exact congrArg id hcons
      case _ => simp at h

theorem firstName_mem : ∀ {rs : List (Except Err (Option String))} {n : String},
    firstName rs = some n → Except.ok (some n) ∈ rs := by
  intro rs
  induction rs with
  | nil => intro n h; simp [firstName] at h
  | cons r rest ih =>
    intro n h
    cases r with
    | ok o =>
      cases o with
      | some m =>
        simp only [firstName, Option.some.injEq] at h
        subst h
        exact List.mem_cons_self _ _
      | none =>
        simp only [firstName] at h
        exact List.mem_cons_of_mem _ (ih h)
    | error e =>
      simp only [firstName] at h
      exact List.mem_cons_of_mem _ (ih h)

theorem resultsLoop_eq : ∀ rs : List (Except Err (Option String)),
    (resultsLoop rs).1 = (firstName rs).getD "" := by
  intro rs
  induction rs with
  | nil => rfl
  | cons r rest ih =>
    cases r with
    | ok o =>
      cases o with
      | some m => simp [resultsLoop, firstName]
      | none => simpa [resultsLoop, firstName] using ih
    | error e => simpa [resultsLoop, firstName] using ih

theorem fallbackLoop_eq (target : String) (files : List (Except IoErr (List String))) :
    (if (resultsLoop (files.map (fun f => parse_config_file f target))).1 = ""
     then Outcome.failure
     else Outcome.success (resultsLoop (files.map (fun f => parse_config_file f target))).1) =
      (match firstName (files.map (fun f => parse_config_file f target)) with
       | some name => Outcome.success name
       | none => Outcome.failure) := by
  rw [resultsLoop_eq]
  cases hf : firstName (files.map (fun f => parse_config_file f target)) with
  | none => simp
  | some n =>
    have hmem := firstName_mem hf
    rw [List.mem_map] at hmem
    obtain ⟨f, -, hpf⟩ := hmem
    obtain ⟨c, rest, hcons, -⟩ := parse_config_file_shape hpf
    have hne := data_cons_ne_empty hcons
    simp [hne]

theorem main_resolve_outcome_eq (target : String) (cmdline : Except IoErr String)
    (scanResult : Option (List (Except IoErr (List String)))) :
    (main_resolve target cmdline scanResult).1 = resolve_outcome target cmdline scanResult := by
  cases hk : parse_kernel_cmdline target cmdline with
  | ok o =>
    cases o with
    | some name =>
      have hne : name ≠ "" := by
        obtain ⟨c, rest, hcons, -⟩ := parse_kernel_cmdline_shape hk
        exact data_cons_ne_empty hcons
      simp [main_resolve, resolve_outcome, hk, hne]
    | none =>
      simp only [main_resolve, resolve_outcome, hk]
      cases scanResult with
      | none => simp
      | some files =>
        simp only [if_pos rfl, apply_ite Prod.fst]
        exact fallbackLoop_eq target files
  | error e =>
    simp only [main_resolve, resolve_outcome, hk]
    cases scanResult with
    | none => simp
    | some files =>
      simp only [if_pos rfl, apply_ite Prod.fst]
      exact fallbackLoop_eq target files

theorem resultsLoop_error_skip : ∀ (xs : List (Except Err (Option String)))
    (ys : List (Except Err (Option String))) (e : Err),
    resultsLoop (xs ++ Except.error e :: ys) = resultsLoop (xs ++ Except.ok none :: ys) := by
  intro xs ys e
  induction xs with
  | nil => simp [resultsLoop]
  | cons r xs ih =>
    cases r with
    | ok o => cases o <;> simp [resultsLoop, ih]
    | error e2 => simp [resultsLoop, ih]

theorem macParsePairs_pairs : ∀ gs : List (Char × Char), gs ≠ [] →
    (∀ p ∈ gs, isHex p.1 = true ∧ isHex p.2 = true) →
    macParsePairs (joinColon (gs.map (fun p => [p.1, p.2]))) =
      some (gs.map (fun p => hexPairVal p.1 p.2)) := by
  intro gs
  induction gs with
  | nil => intro h _; exact absurd rfl h
  | cons p gs ih =>
    intro _ hhex
    obtain ⟨a, b⟩ := p
    obtain ⟨ha, hb⟩ := hhex (a, b) (List.mem_cons_self _ _)
    simp only at ha hb
    cases gs with
    | nil => simp [joinColon, macParsePairs, ha, hb]
    | cons q gs2 =>
      have hne : q :: gs2 ≠ [] := by simp
      have hrec := ih hne (fun r hr => hhex r (List.mem_cons_of_mem _ hr))
      simp only [List.map_cons, joinColon]
      show macParsePairs (a :: b :: ':' :: joinColon ((q :: gs2).map (fun p => [p.1, p.2]))) = _
      rw [macParsePairs.eq_def]
      simp only [ha, hb, Bool.and_self, if_true]
      rw [hrec]
      simp

theorem macParsePairs_groups : ∀ (cs : List Char) (l : List Nat),
    macParsePairs cs = some l →
    ∃ gs : List (Char × Char), gs ≠ [] ∧ (∀ p ∈ gs, isHex p.1 = true ∧ isHex p.2 = true) ∧
      cs = joinColon (gs.map (fun p => [p.1, p.2])) ∧
      l = gs.map (fun p => hexPairVal p.1 p.2) := by
  intro cs
  induction cs using macParsePairs.induct with
  | case1 a b hcond =>
    intro l h
    simp only [macParsePairs, hcond, if_true] at h
    simp only [Bool.and_eq_true] at hcond
    refine ⟨[(a, b)], by simp, by simpa using hcond, by simp [joinColon], ?_⟩
    simp only [List.map_cons, List.map_nil]
    exact (Option.some.inj h).symm
  | case2 a b hcond =>
    intro l h
    simp [macParsePairs, hcond] at h
  | case3 a b rest hcond ih =>
    intro l h
    simp only [macParsePairs, hcond, if_true] at h
    cases hr : macParsePairs rest with
    | none => rw [hr] at h; simp at h
    | some l2 =>
      rw [hr] at h
      simp only [Option.map_some', Option.some.injEq] at h
      obtain ⟨gs, hne, hhex, hcs, hl⟩ := ih l2 hr
      simp only [Bool.and_eq_true] at hcond
      refine ⟨(a, b) :: gs, by simp, ?_, ?_, ?_⟩
      · intro p hp
        rcases List.mem_cons.mp hp with hp | hp
        · subst hp; simpa using hcond
        · exact hhex p hp
      · have hgsne : gs.map (fun p => [p.1, p.2]) ≠ [] := by
          simpa [List.map_eq_nil_iff] using hne
        cases hgs : gs.map (fun p => [p.1, p.2]) with
        | nil => exact absurd hgs hgsne
        | cons g gtail =>
          simp only [List.map_cons, joinColon, hgs]
          rw [hcs, hgs]
          simp [joinColon]
      · rw [Eq.symm h, hl]
        simp
  | case4 a b rest hcond =>
    intro l h
    simp [macParsePairs, hcond] at h
  | case5 t h1 h2 =>
    intro l h
    rw [macParsePairs.eq_def] at h
    split at h
    case _ => simp_all
    case _ => simp_all
    case _ => exact absurd h (by simp)

theorem list_len6 {α : Type} {gs : List α} (h : gs.length = 6) :
    ∃ p1 p2 p3 p4 p5 p6, gs = [p1, p2, p3, p4, p5, p6] := by
  cases gs with
  | nil => simp at h
  | cons p1 t1 =>
  cases t1 with
  | nil => simp at h
  | cons p2 t2 =>
  cases t2 with
  | nil => simp at h
  | cons p3 t3 =>
  cases t3 with
  | nil => simp at h
  | cons p4 t4 =>
  cases t4 with
  | nil => simp at h
  | cons p5 t5 =>
  cases t5 with
  | nil => simp at h
  | cons p6 t6 =>
  cases t6 with
  | nil => exact ⟨p1, p2, p3, p4, p5, p6, rfl⟩
  | cons p7 t7 => simp at h

theorem macFromStr_parts {cs : List Char} {l : List Nat} (h : macFromStr cs = some l) :
    l.length = 6 ∧ macParsePairs cs = some l := by
  simp only [macFromStr] at h
  cases hp : macParsePairs cs with
  | none => rw [hp] at h; simp at h
  | some l2 =>
    simp only [hp] at h
    split at h
    next h6 =>
      obtain rfl := Option.some.inj h
      exact ⟨h6, rfl⟩
    next => exact absurd h (by simp)

theorem macFromStr_bytes {cs : List Char} {l : List Nat} (h : macFromStr cs = some l) :
    ∀ b ∈ l, b < 256 := by
  obtain ⟨-, hp⟩ := macFromStr_parts h
  obtain ⟨gs, -, hhex, -, hl⟩ := macParsePairs_groups cs l hp
  intro b hb
  rw [hl, List.mem_map] at hb
  obtain ⟨p, hpmem, hpv⟩ := hb
  obtain ⟨h1, h2⟩ := hhex p hpmem
  rw [Eq.symm hpv]
  exact hexPairVal_lt (isHex_iff.mp h1) (isHex_iff.mp h2)

theorem macSpecShape_of_some {cs : List Char} {l : List Nat} (h : macFromStr cs = some l) :
    macSpecShape cs := by
  obtain ⟨h6, hp⟩ := macFromStr_parts h
  obtain ⟨gs, -, hhex, hcs, hl⟩ := macParsePairs_groups cs l hp
  have hgs6 : gs.length = 6 := by
    have := congrArg List.length hl
    simpa [h6] using this.symm
  obtain ⟨p1, p2, p3, p4, p5, p6, rfl⟩ := list_len6 hgs6
  obtain ⟨a1, b1⟩ := p1
  obtain ⟨a2, b2⟩ := p2
  obtain ⟨a3, b3⟩ := p3
  obtain ⟨a4, b4⟩ := p4
  obtain ⟨a5, b5⟩ := p5
  obtain ⟨a6, b6⟩ := p6
  refine ⟨[a1, b1], [a2, b2], [a3, b3], [a4, b4], [a5, b5], [a6, b6], ?_, ?_⟩
  · rw [hcs]
    simp [joinColon]
  · intro g hg
    simp only [List.mem_cons, List.not_mem_nil, or_false] at hg
    rcases hg with rfl | rfl | rfl | rfl | rfl | rfl <;> refine ⟨rfl, ?_⟩ <;>
      intro c hc <;> simp only [List.mem_cons, List.not_mem_nil, or_false] at hc
    · rcases hc with rfl | rfl
      · exact (hhex (c, b1) (by simp)).1
      · exact (hhex (a1, c) (by simp)).2
    · rcases hc with rfl | rfl
      · exact (hhex (c, b2) (by simp)).1
      · exact (hhex (a2, c) (by simp)).2
    · rcases hc with rfl | rfl
      · exact (hhex (c, b3) (by simp)).1
      · exact (hhex (a3, c) (by simp)).2
    · rcases hc with rfl | rfl
      · exact (hhex (c, b4) (by simp)).1
      · exact (hhex (a4, c) (by simp)).2
    · rcases hc with rfl | rfl
      · exact (hhex (c, b5) (by simp)).1
      · exact (hhex (a5, c) (by simp)).2
    · rcases hc with rfl | rfl
      · exact (hhex (c, b6) (by simp)).1
      · exact (hhex (a6, c) (by simp)).2

theorem some_of_macSpecShape {cs : List Char} (h : macSpecShape cs) :
    ∃ l, macFromStr cs = some l := by
  obtain ⟨g1, g2, g3, g4, g5, g6, hcs, hgs⟩ := h
  have h1 := hgs g1 (by simp)
  have h2 := hgs g2 (by simp)
  have h3 := hgs g3 (by simp)
  have h4 := hgs g4 (by simp)
  have h5 := hgs g5 (by simp)
  have h6 := hgs g6 (by simp)
  obtain ⟨a1, b1, hg1⟩ := List.length_eq_two.mp h1.1
  obtain ⟨a2, b2, hg2⟩ := List.length_eq_two.mp h2.1
  obtain ⟨a3, b3, hg3⟩ := List.length_eq_two.mp h3.1
  obtain ⟨a4, b4, hg4⟩ := List.length_eq_two.mp h4.1
  obtain ⟨a5, b5, hg5⟩ := List.length_eq_two.mp h5.1
  obtain ⟨a6, b6, hg6⟩ := List.length_eq_two.mp h6.1
  subst hg1; subst hg2; subst hg3; subst hg4; subst hg5; subst hg6
  have hpp := macParsePairs_pairs
    [(a1, b1), (a2, b2), (a3, b3), (a4, b4), (a5, b5), (a6, b6)] (by simp) (by
      intro p hp
      simp only [List.mem_cons, List.not_mem_nil, or_false] at hp
      rcases hp with rfl | rfl | rfl | rfl | rfl | rfl <;> constructor
      · exact h1.2 a1 (by simp)
      · exact h1.2 b1 (by simp)
      · exact h2.2 a2 (by simp)
      · exact h2.2 b2 (by simp)
      · exact h3.2 a3 (by simp)
      · exact h3.2 b3 (by simp)
      · exact h4.2 a4 (by simp)
      · exact h4.2 b4 (by simp)
      · exact h5.2 a5 (by simp)
      · exact h5.2 b5 (by simp)
      · exact h6.2 a6 (by simp)
      · exact h6.2 b6 (by simp))
  have hjoin : joinColon ([(a1, b1), (a2, b2), (a3, b3), (a4, b4), (a5, b5),
      (a6, b6)].map (fun p => [p.1, p.2])) = cs := by
    rw [hcs]
    simp [joinColon]
  rw [hjoin] at hpp
  refine ⟨[hexPairVal a1 b1, hexPairVal a2 b2, hexPairVal a3 b3, hexPairVal a4 b4,
    hexPairVal a5 b5, hexPairVal a6 b6], ?_⟩
  simp only [List.map_cons, List.map_nil] at hpp
  simp [macFromStr, hpp]

theorem macFromStr_none_iff (cs : List Char) : macFromStr cs = none ↔ ¬ macSpecShape cs := by
  constructor
  · intro hn hs
    obtain ⟨l, hl⟩ := some_of_macSpecShape hs
    rw [hl] at hn
    exact Option.noConfusion hn
  · intro hns
    cases hm : macFromStr cs with
    | none => rfl
    | some l => exact absurd (macSpecShape_of_some hm) hns

theorem toLower_colon : Char.toLower ':' = ':' := by decide

theorem lowerList_joinColon : ∀ gs : List (List Char),
    lowerList (joinColon gs) = joinColon (gs.map lowerList) := by
  intro gs
  induction gs with
  | nil => rfl
  | cons g tail ih =>
    cases tail with
    | nil => rfl
    | cons g2 gs2 =>
      simp only [joinColon, List.map_cons, lowerList, List.map_append]
      simp only [List.map_cons, toLower_colon]
      have := ih
      simp only [joinColon, List.map_cons, lowerList] at this
      rw [this]

theorem displayLower_pairs (l : List Nat) :
    macDisplayLower l = joinColon (l.map (fun b =>
      [Char.toLower (upperHexDigit (b / 16)), Char.toLower (upperHexDigit (b % 16))])) := by
  show lowerList (joinColon (l.map byteHexUpper)) = _
  rw [lowerList_joinColon, List.map_map]
  rfl

theorem macFromStr_displayLower {l : List Nat} (h6 : l.length = 6)
    (hlt : ∀ b ∈ l, b < 256) : macFromStr (macDisplayLower l) = some l := by
  have hne : l ≠ [] := by intro he; rw [he] at h6; simp at h6
  have hpp := macParsePairs_pairs
    (l.map (fun b => (Char.toLower (upperHexDigit (b / 16)),
      Char.toLower (upperHexDigit (b % 16)))))
    (by simpa using hne)
    (by
      intro p hp
      rw [List.mem_map] at hp
      obtain ⟨b, hb, rfl⟩ := hp
      have hblt := hlt b hb
      constructor
      · exact (lower_upperHexDigit_canonical (b / 16) (by omega)).1
      · exact (lower_upperHexDigit_canonical (b % 16) (by omega)).1)
  have hjoin : joinColon ((l.map (fun b => (Char.toLower (upperHexDigit (b / 16)),
      Char.toLower (upperHexDigit (b % 16))))).map (fun p => [p.1, p.2])) =
      macDisplayLower l := by
    rw [displayLower_pairs, List.map_map]
    rfl
  rw [hjoin] at hpp
  have hvals : (l.map (fun b => (Char.toLower (upperHexDigit (b / 16)),
      Char.toLower (upperHexDigit (b % 16))))).map (fun p => hexPairVal p.1 p.2) = l := by
    rw [List.map_map]
    have hfix : ∀ b ∈ l, (fun b => hexPairVal (Char.toLower (upperHexDigit (b / 16)))
        (Char.toLower (upperHexDigit (b % 16)))) b = b := by
      intro b hb
      have hblt := hlt b hb
      simp only [hexPairVal]
      rw [(lower_upperHexDigit_canonical (b / 16) (by omega)).2.2,
        (lower_upperHexDigit_canonical (b % 16) (by omega)).2.2]
      omega
    calc l.map _ = l.map id := List.map_congr_left hfix
    _ = l := List.map_id l
  rw [hvals] at hpp
  have hlen6 : (l.map (fun b => (Char.toLower (upperHexDigit (b / 16)),
      Char.toLower (upperHexDigit (b % 16))))).map (fun p => hexPairVal p.1 p.2) = l := hvals
  simp [macFromStr, hpp, h6]

theorem canonical_displayLower {l : List Nat} (h6 : l.length = 6)
    (hlt : ∀ b ∈ l, b < 256) : isCanonicalLowerMac (macDisplayLower l) = true := by
  obtain ⟨n1, n2, n3, n4, n5, n6, rfl⟩ := list_len6 h6
  have b1 : n1 < 256 := hlt n1 (by simp)
  have b2 : n2 < 256 := hlt n2 (by simp)
  have b3 : n3 < 256 := hlt n3 (by simp)
  have b4 : n4 < 256 := hlt n4 (by simp)
  have b5 : n5 < 256 := hlt n5 (by simp)
  have b6 : n6 < 256 := hlt n6 (by simp)
  have hexp : macDisplayLower [n1, n2, n3, n4, n5, n6] =
      [Char.toLower (upperHexDigit (n1 / 16)), Char.toLower (upperHexDigit (n1 % 16)), ':',
       Char.toLower (upperHexDigit (n2 / 16)), Char.toLower (upperHexDigit (n2 % 16)), ':',
       Char.toLower (upperHexDigit (n3 / 16)), Char.toLower (upperHexDigit (n3 % 16)), ':',
       Char.toLower (upperHexDigit (n4 / 16)), Char.toLower (upperHexDigit (n4 % 16)), ':',
       Char.toLower (upperHexDigit (n5 / 16)), Char.toLower (upperHexDigit (n5 % 16)), ':',
       Char.toLower (upperHexDigit (n6 / 16)), Char.toLower (upperHexDigit (n6 % 16))] := by
    rw [displayLower_pairs]
    simp [joinColon]
  rw [hexp]
  simp only [isCanonicalLowerMac, List.all_cons, List.all_nil, Bool.and_true,
    Bool.and_eq_true, Bool.not_eq_true', decide_eq_false_iff_not]
  exact ⟨⟨(lower_upperHexDigit_canonical (n1 / 16) (by omega)).1,
      (lower_upperHexDigit_canonical (n1 / 16) (by omega)).2.1⟩,
    ⟨(lower_upperHexDigit_canonical (n1 % 16) (by omega)).1,
      (lower_upperHexDigit_canonical (n1 % 16) (by omega)).2.1⟩,
    ⟨(lower_upperHexDigit_canonical (n2 / 16) (by omega)).1,
      (lower_upperHexDigit_canonical (n2 / 16) (by omega)).2.1⟩,
    ⟨(lower_upperHexDigit_canonical (n2 % 16) (by omega)).1,
      (lower_upperHexDigit_canonical (n2 % 16) (by omega)).2.1⟩,
    ⟨(lower_upperHexDigit_canonical (n3 / 16) (by omega)).1,
      (lower_upperHexDigit_canonical (n3 / 16) (by omega)).2.1⟩,
    ⟨(lower_upperHexDigit_canonical (n3 % 16) (by omega)).1,
      (lower_upperHexDigit_canonical (n3 % 16) (by omega)).2.1⟩,
    ⟨(lower_upperHexDigit_canonical (n4 / 16) (by omega)).1,
      (lower_upperHexDigit_canonical (n4 / 16) (by omega)).2.1⟩,
    ⟨(lower_upperHexDigit_canonical (n4 % 16) (by omega)).1,
      (lower_upperHexDigit_canonical (n4 % 16) (by omega)).2.1⟩,
    ⟨(lower_upperHexDigit_canonical (n5 / 16) (by omega)).1,
      (lower_upperHexDigit_canonical (n5 / 16) (by omega)).2.1⟩,
    ⟨(lower_upperHexDigit_canonical (n5 % 16) (by omega)).1,
      (lower_upperHexDigit_canonical (n5 % 16) (by omega)).2.1⟩,
    ⟨(lower_upperHexDigit_canonical (n6 / 16) (by omega)).1,
      (lower_upperHexDigit_canonical (n6 / 16) (by omega)).2.1⟩,
    ⟨(lower_upperHexDigit_canonical (n6 % 16) (by omega)).1,
      (lower_upperHexDigit_canonical (n6 % 16) (by omega)).2.1⟩⟩

theorem asString_data (s : String) : List.asString s.data = s := by
  cases s
  rfl

theorem toLower_fix {c : Char} (hmem : c ∈ hexDigits)
    (hupper : c ∉ ['A', 'B', 'C', 'D', 'E', 'F']) : Char.toLower c = c := by
  simp only [hexDigits] at hmem
  fin_cases hmem <;> revert hupper <;> decide

theorem canonical_inv {cs : List Char} (h : isCanonicalLowerMac cs = true) :
    ∃ a1 a2 b1 b2 c1 c2 d1 d2 e1 e2 f1 f2 : Char,
      cs = [a1, a2, ':', b1, b2, ':', c1, c2, ':', d1, d2, ':', e1, e2, ':', f1, f2] ∧
      ∀ x ∈ [a1, a2, b1, b2, c1, c2, d1, d2, e1, e2, f1, f2],
        x ∈ hexDigits ∧ x ∉ ['A', 'B', 'C', 'D', 'E', 'F'] := by
  rw [isCanonicalLowerMac.eq_def] at h
  split at h
  case _ a1 a2 b1 b2 c1 c2 d1 d2 e1 e2 f1 f2 =>
    simp only [List.all_cons, List.all_nil, Bool.and_true, Bool.and_eq_true,
      Bool.not_eq_true', decide_eq_false_iff_not, isHex, decide_eq_true_eq] at h
    obtain ⟨h1, h2, h3, h4, h5, h6, h7, h8, h9, h10, h11, h12⟩ := h
    refine ⟨a1, a2, b1, b2, c1, c2, d1, d2, e1, e2, f1, f2, rfl, ?_⟩
    intro x hx
    simp only [List.mem_cons, List.not_mem_nil, or_false] at hx
    rcases hx with rfl | rfl | rfl | rfl | rfl | rfl | rfl | rfl | rfl | rfl | rfl | rfl
    · exact h1
    · exact h2
    · exact h3
    · exact h4
    · exact h5
    · exact h6
    · exact h7
    · exact h8
    · exact h9
    · exact h10
    · exact h11
    · exact h12
  case _ => exact absurd h (by simp)

theorem normalizeMac_canonical {s t : String} (h : normalizeMac s = some t) :
    isCanonicalLowerMac t.data = true ∧ normalizeMac t = some t := by
  simp only [normalizeMac] at h
  cases hm : macFromStr s.data with
  | none => rw [hm] at h; simp at h
  | some bytes =>
    rw [hm] at h
    simp only [Option.map] at h
    obtain rfl := Option.some.inj h
    have h6 := (macFromStr_parts hm).1
    have hlt := macFromStr_bytes hm
    have hdata : (List.asString (macDisplayLower bytes)).data = macDisplayLower bytes := rfl
    constructor
    · rw [hdata]
      exact canonical_displayLower h6 hlt
    · simp only [normalizeMac, hdata, macFromStr_displayLower h6 hlt, Option.map]

theorem normalizeMac_of_canonical {t : String} (h : isCanonicalLowerMac t.data = true) :
    normalizeMac t = some t := by
  obtain ⟨a1, a2, b1, b2, c1, c2, d1, d2, e1, e2, f1, f2, hcs, hall⟩ := canonical_inv h
  have hx : ∀ x ∈ [a1, a2, b1, b2, c1, c2, d1, d2, e1, e2, f1, f2], x ∈ hexDigits :=
    fun x hmem => (hall x hmem).1
  simp only [List.mem_cons, List.not_mem_nil, or_false, forall_eq_or_imp, forall_eq] at hx
  obtain ⟨q1, q2, q3, q4, q5, q6, q7, q8, q9, q10, q11, q12⟩ := hx
  have hparse := macFromStr_explicit q1 q2 q3 q4 q5 q6 q7 q8 q9 q10 q11 q12
  have hdisp := macDisplayLower_explicit q1 q2 q3 q4 q5 q6 q7 q8 q9 q10 q11 q12
  have hfix : lowerList [a1, a2, ':', b1, b2, ':', c1, c2, ':', d1, d2, ':',
      e1, e2, ':', f1, f2] = [a1, a2, ':', b1, b2, ':', c1, c2, ':', d1, d2, ':',
      e1, e2, ':', f1, f2] := by
    simp only [lowerList, List.map_cons, List.map_nil, toLower_colon]
    rw [toLower_fix (hall a1 (by simp)).1 (hall a1 (by simp)).2,
      toLower_fix (hall a2 (by simp)).1 (hall a2 (by simp)).2,
      toLower_fix (hall b1 (by simp)).1 (hall b1 (by simp)).2,
      toLower_fix (hall b2 (by simp)).1 (hall b2 (by simp)).2,
      toLower_fix (hall c1 (by simp)).1 (hall c1 (by simp)).2,
      toLower_fix (hall c2 (by simp)).1 (hall c2 (by simp)).2,
      toLower_fix (hall d1 (by simp)).1 (hall d1 (by simp)).2,
      toLower_fix (hall d2 (by simp)).1 (hall d2 (by simp)).2,
      toLower_fix (hall e1 (by simp)).1 (hall e1 (by simp)).2,
      toLower_fix (hall e2 (by simp)).1 (hall e2 (by simp)).2,
      toLower_fix (hall f1 (by simp)).1 (hall f1 (by simp)).2,
      toLower_fix (hall f2 (by simp)).1 (hall f2 (by simp)).2]
  simp only [normalizeMac, hcs, hparse, Option.map, hdisp, hfix]
  rw [Eq.symm hcs]
  rw [asString_data]

theorem scan_config_dir_none_iff (listing : List (Except IoErr (List Char))) :
    scan_config_dir listing = none ↔
      ∀ p : List Char, Except.ok p ∈ listing → "ifcfg-".data.isPrefixOf p = false := by
  simp only [scan_config_dir]
  constructor
  · intro h p hp
    by_contra hc
    rw [Bool.not_eq_false] at hc
    have hmem : p ∈ listing.filterMap ifcfgEntry :=
      List.mem_filterMap.mpr ⟨Except.ok p, hp, by simp [ifcfgEntry, hc]⟩
    have hne : listing.filterMap ifcfgEntry ≠ [] := List.ne_nil_of_mem hmem
    rw [if_pos] at h
    · exact Option.noConfusion h
    · simpa using hne
  · intro h
    have hnil : listing.filterMap ifcfgEntry = [] := by
      rw [List.filterMap_eq_nil]
      intro e he
      cases e with
      | ok p => simp [ifcfgEntry, h p he]
      | error e2 => simp [ifcfgEntry]
    rw [hnil]
    simp

theorem scan_config_dir_error_skip (xs ys : List (Except IoErr (List Char))) (e : IoErr) :
    scan_config_dir (xs ++ Except.error e :: ys) = scan_config_dir (xs ++ ys) := by
  simp [scan_config_dir, List.filterMap_append, List.filterMap_cons, ifcfgEntry]

theorem is_like_kernel_name_iff (s : String) :
    is_like_kernel_name s = true ↔
      ∃ ds : List Char, s.data = 'e' :: 't' :: 'h' :: ds ∧ ds ≠ [] ∧
        ∀ c ∈ ds, isNdDigit c = true := by
  rw [is_like_kernel_name.eq_def]
  split
  case _ rest heq =>
    simp only [Bool.and_eq_true, Bool.not_eq_true', List.all_eq_true]
    constructor
    · intro ⟨hne, hall⟩
      refine ⟨rest, heq, ?_, fun c hc => by simpa using hall c hc⟩
      intro hrest
      rw [hrest] at hne
      simp at hne
    · intro ⟨ds, hds, hne, hall⟩
      rw [heq] at hds
      simp only [List.cons.injEq, true_and] at hds
      subst hds
      constructor
      · simpa using hne
      · exact fun c hc => by simpa using hall c hc
  case _ hfail =>
    constructor
    · intro h
      exact absurd h (by simp)
    · rintro ⟨ds, hds, -, -⟩
      exact absurd hds (by intro hc; exact hfail ds hc)

/-- C1: the orchestrator follows the priority order.  If the kernel-cmdline
source yields a device name the outcome is that name regardless of the
config-directory argument (the right-hand side does not consult
`scanResult` in that case); otherwise the candidate files are iterated in
order and the first file whose parse yields a name wins (`firstName` skips
results that yield no name or a parse issue); if everything is exhausted —
or the scanner yielded nothing — the outcome is `Outcome.failure`, i.e. a
non-zero exit with no name written to stdout. -/
theorem claim_C1_priority_order (target : String) (cmdline : Except IoErr String)
    (scanResult : Option (List (Except IoErr (List String)))) :
    (main_resolve target cmdline scanResult).1 =
      match parse_kernel_cmdline target cmdline with
      | Except.ok (some name) => Outcome.success name
      | _ =>
        match scanResult with
        | none => Outcome.failure
        | some files =>
          match firstName (files.map (fun f => parse_config_file f target)) with
          | some name => Outcome.success name
          | none => Outcome.failure :=
  main_resolve_outcome_eq target cmdline scanResult

/-- C2: `parse_config_file` returns NotFound when no `HWADDR` line exists
(regardless of any `DEVICE` line); NotFound when the last captured `HWADDR`,
lowercased, differs from the target (regardless of any `DEVICE` line); the
last captured `DEVICE` name when the `HWADDR` matches and a `DEVICE` line
was captured; and NotFound when the `HWADDR` matches but no `DEVICE` line
exists. -/
theorem claim_C2_config_parse (lines : List String) (target : String) :
    parse_config_file (Except.ok lines) target =
      Except.ok (
        match (lines.filterMap (fun l => hwCapture l.data)).getLast? with
        | none => none
        | some h =>
          if lowerList h = target.data
          then Option.map List.asString (lines.filterMap (fun l => devCapture l.data)).getLast?
          else none) :=
  parse_config_file_spec lines target

/-- C3: `parse_kernel_cmdline` scans the `ifname=<name>:<mac>` occurrences
left-to-right (the list `scanIfname` in match order), returns the name of
the first occurrence whose lowercased MAC equals the (already canonical,
lowercase) target and stops there (`List.find?` semantics); when no
occurrence matches it returns `Except.ok none` (NotFound), not an error. -/
theorem claim_C3_cmdline_first_match (target text : String) :
    parse_kernel_cmdline target (Except.ok text) =
      Except.ok (Option.map (fun p => List.asString p.1)
        ((scanIfname text.data).find? (fun p => lowerList p.2 == target.data))) :=
  parse_kernel_cmdline_spec target text

/-- C4 counterexample: a config-file result carrying the defensive
`MalformedMac` parse failure is not fatal for the resolution: the `main`
loop over the per-file results (src/main.rs:129-142, `_ => continue`) skips
it exactly like NotFound and adopts the name of a later file, so the
resolution succeeds instead of terminating with a non-zero status as the
claim requires. -/
theorem claim_C4_counterexample :
    resultsLoop [Except.error Err.malformedMac, Except.ok (some "sample")] =
      ("sample", []) := by decide

/-- C4 amended: an error result (`MalformedMac` included) from a config
file is treated by the orchestrator's loop identically to NotFound on that
candidate — the file is skipped and scanning continues; moreover, with the
actual extraction patterns the stricter MAC parse never fails on captured
text, so neither parser can return `Err.malformedMac` at all. -/
theorem claim_C4_amended :
    (∀ (xs ys : List (Except Err (Option String))) (e : Err),
      resultsLoop (xs ++ Except.error e :: ys) = resultsLoop (xs ++ Except.ok none :: ys)) ∧
    (∀ (file : Except IoErr (List String)) (target : String),
      parse_config_file file target ≠ Except.error Err.malformedMac) ∧
    (∀ (target : String) (cl : Except IoErr String),
      parse_kernel_cmdline target cl ≠ Except.error Err.malformedMac) :=
  ⟨resultsLoop_error_skip, parse_config_file_no_malformed, parse_kernel_cmdline_no_malformed⟩

/-- C4 amended, instantiated at concrete inputs. -/
theorem claim_C4_witness :
    resultsLoop ([] ++ Except.error Err.malformedMac :: [Except.ok (some "a")]) =
      resultsLoop ([] ++ Except.ok none :: [Except.ok (some "a")]) :=
  claim_C4_amended.1 [] [Except.ok (some "a")] Err.malformedMac

/-- C5 counterexample: the name group `(\S[^:]{0,14})` accepts `:` as its
first character (`\S` only excludes whitespace), so the engine can return a
device name containing `:`, contradicting the claim. -/
theorem claim_C5_counterexample :
    parse_config_file (Except.ok ["HWADDR=aa:bb:cc:dd:ee:ff", "DEVICE=:bad"])
        "aa:bb:cc:dd:ee:ff" = Except.ok (some ":bad") ∧ ':' ∈ ":bad".data := by
  constructor
  · decide
  · decide

/-- C5 amended: every device name returned by the engine is non-empty, has
at most 15 characters, its first character is not whitespace (but may be
`:`), and no character after the first is `:`. -/
theorem claim_C5_amended :
    (∀ (target : String) (cl : Except IoErr String) (n : String),
      parse_kernel_cmdline target cl = Except.ok (some n) → nameShape n) ∧
    (∀ (file : Except IoErr (List String)) (target n : String),
      parse_config_file file target = Except.ok (some n) → nameShape n) :=
  ⟨fun _ _ _ h => parse_kernel_cmdline_shape h,
   fun _ _ _ h => parse_config_file_shape h⟩

/-- C5 amended, instantiated at concrete inputs from both sources. -/
theorem claim_C5_witness :
    nameShape "unit_test_1" ∧ nameShape "correct_if_name" :=
  ⟨claim_C5_amended.1 "aa:bb:cc:dd:ee:1f"
      (Except.ok "ifname=unit_test_1:aa:bb:cc:dd:ee:1f") "unit_test_1" (by decide),
   claim_C5_amended.2 (Except.ok ["HWADDR=aa:bb:cc:dd:ee:3f", "DEVICE=correct_if_name"])
      "aa:bb:cc:dd:ee:3f" "correct_if_name" (by decide)⟩

/-- C6: MAC normalization fails exactly on the inputs that are not six
2-hex-digit groups separated by `:` (wrong group count, non-hex characters
or wrong separator all fall outside `macSpecShape`). -/
theorem claim_C6_invalid_mac_rejected (s : String) :
    normalizeMac s = none ↔ ¬ macSpecShape s.data := by
  have h1 : normalizeMac s = none ↔ macFromStr s.data = none := by
    simp [normalizeMac]
  rw [h1, macFromStr_none_iff]

/-- C7: normalizing a valid MAC always yields the canonical lowercase
colon-hex form and normalization is idempotent; normalizing an
already-canonical MAC returns the same string; and the concrete example
`AA:BB:CC:DD:EE:1F` normalizes to `aa:bb:cc:dd:ee:1f`. -/
theorem claim_C7_normalization_idempotent :
    (∀ s t : String, normalizeMac s = some t →
      isCanonicalLowerMac t.data = true ∧ normalizeMac t = some t) ∧
    (∀ t : String, isCanonicalLowerMac t.data = true → normalizeMac t = some t) ∧
    normalizeMac "AA:BB:CC:DD:EE:1F" = some "aa:bb:cc:dd:ee:1f" :=
  ⟨fun _ _ h => normalizeMac_canonical h, fun _ h => normalizeMac_of_canonical h, by decide⟩

/-- C7 instantiated at `AA:BB:CC:DD:EE:1F`. -/
theorem claim_C7_witness :
    isCanonicalLowerMac "aa:bb:cc:dd:ee:1f".data = true ∧
      normalizeMac "aa:bb:cc:dd:ee:1f" = some "aa:bb:cc:dd:ee:1f" :=
  claim_C7_normalization_idempotent.1 "AA:BB:CC:DD:EE:1F" "aa:bb:cc:dd:ee:1f" (by decide)

/-- C8: `scan_config_dir` returns NotFound exactly when no successfully
enumerated entry matches the case-sensitive glob `ifcfg-*` (an unreadable
directory enumerates to a stream with no such entry); entries that
individually error during enumeration are skipped without affecting the
result; and when the scanner yields NotFound while the kernel cmdline gave
no name, the orchestrator fails with a non-zero status. -/
theorem claim_C8_scan_not_found :
    (∀ listing : List (Except IoErr (List Char)),
      scan_config_dir listing = none ↔
        ∀ p : List Char, Except.ok p ∈ listing → "ifcfg-".data.isPrefixOf p = false) ∧
    (∀ (xs ys : List (Except IoErr (List Char))) (e : IoErr),
      scan_config_dir (xs ++ Except.error e :: ys) = scan_config_dir (xs ++ ys)) ∧
    (∀ (target : String) (cl : Except IoErr String),
      ¬(∃ n, parse_kernel_cmdline target cl = Except.ok (some n)) →
      (main_resolve target cl none).1 = Outcome.failure) := by
  refine ⟨scan_config_dir_none_iff, scan_config_dir_error_skip, ?_⟩
  intro target cl h
  rw [main_resolve_outcome_eq]
  simp only [resolve_outcome]
  cases hk : parse_kernel_cmdline target cl with
  | ok o =>
    cases o with
    | some n => exact absurd ⟨n, hk⟩ h
    | none => rfl
  | error e => rfl

/-- C8 orchestrator part, instantiated at concrete inputs. -/
theorem claim_C8_witness :
    (main_resolve "aa:bb:cc:dd:ee:1f" (Except.ok "") none).1 = Outcome.failure :=
  claim_C8_scan_not_found.2.2 "aa:bb:cc:dd:ee:1f" (Except.ok "") (by
    rintro ⟨n, hn⟩
    rw [show parse_kernel_cmdline "aa:bb:cc:dd:ee:1f" (Except.ok "") = Except.ok none
      from by decide] at hn
    exact Option.noConfusion (Except.ok.inj hn))

/-- C9: `is_like_kernel_name` holds exactly on `eth` followed by one or
more decimal digits (Unicode `Nd`, the class the pattern's digit escape
denotes) and nothing else; the spec's examples hold; and the
advisory never alters the resolution outcome — the outcome component of
`main_resolve` equals `resolve_outcome`, a definition that never consults
`is_like_kernel_name`. -/
theorem claim_C9_kernel_style_advisory :
    (∀ s : String, is_like_kernel_name s = true ↔
      ∃ ds : List Char, s.data = 'e' :: 't' :: 'h' :: ds ∧ ds ≠ [] ∧
        ∀ c ∈ ds, isNdDigit c = true) ∧
    is_like_kernel_name "eth12" = true ∧ is_like_kernel_name "eth12a" = false ∧
    is_like_kernel_name "lan0" = false ∧
    (∀ (target : String) (cmdline : Except IoErr String)
        (scanResult : Option (List (Except IoErr (List String)))),
      (main_resolve target cmdline scanResult).1 = resolve_outcome target cmdline scanResult) :=
  ⟨is_like_kernel_name_iff, by decide, by decide, by decide, main_resolve_outcome_eq⟩

/-- C10: when the kernel-cmdline source cannot be read at all, the
orchestrator behaves exactly as on a readable source with no `ifname=`
match (NotFound): it does not abort and falls back to the config-directory
scan. -/
theorem claim_C10_unreadable_cmdline_fallback (target : String) (e : IoErr)
    (scanResult : Option (List (Except IoErr (List String)))) :
    main_resolve target (Except.error e) scanResult =
      main_resolve target (Except.ok "") scanResult := by
  cases e
  rfl
